import Mathlib

/-!
Traversal strategies of `src/disasm/ElfDisassembler.cpp`

A shallow embedding of the section traversal code of the TriCore disassembler:
the branch classifier (`isBranch`, `isDirectBranch`), the symbol locator
(`getCodeSymbolsForSection`), the two per-section strategies
(`disassembleSectionUsingLinearSweep`, `disassembleSectionUsingSymbols`) and the
image scanners (`disassembleCodeUsingLinearSweep`, `disassembleCodeUsingSymbols`).

Conventions of the embedding.

* `size_t` is 64 bits wide.  Values are natural numbers; every `size_t`
  operation of the source is written with an explicit reduction modulo
  `SIZE_MOD`.
* Pointers are natural numbers (addresses of bytes in the memory of the
  process); `Section.data` is the address of the first byte of a section's
  contents, which occupy `hdr.size` bytes.
* Operations whose behaviour is undefined in C++ (an array read outside the
  recorded entries, a null dereference, an integer division by zero) and the C++
  exception of `as_symtab` yield `Res.fault`.
* The capstone library is a parameter (`Capstone`): the two enumeration
  constants the source uses and the `cs_disasm_iter` primitive, given as a
  function of the decode cursor.  Opening and closing the handle and all
  printing of instruction text are left out.
* The `while` loops run on a step budget (`fuel`); a budget that runs out is
  the fault `outOfFuel`.  The theorems show that a budget above the section size
  always suffices for a decoder that consumes at least one byte per
  instruction.
* Fields named `steps` and `regions` of `Run` are ghost state: they record the
  loop's own actions (each decoded instruction with the counters after it, each
  cursor a region's decoding starts from) and never influence the computation.
-/

namespace ElfDisassembler

/-! ## Machine arithmetic -/

/-- Number of values of the type `size_t`. -/
def SIZE_MOD : Nat := 2 ^ 64

/-- Conversion of an unsigned value to `size_t`. -/
def toSize (x : Nat) : Nat := x % SIZE_MOD

/-- The sum `a + b` in `size_t`. -/
def sizeAdd (a b : Nat) : Nat := (a + b) % SIZE_MOD

/-- The difference `a - b` in `size_t` (wraps around when `a < b`). -/
def sizeSub (a b : Nat) : Nat := (a % SIZE_MOD + SIZE_MOD - b % SIZE_MOD) % SIZE_MOD

/-- The product `a * b` in `size_t`. -/
def sizeMul (a b : Nat) : Nat := (a * b) % SIZE_MOD

/-- The increment `a++` in `size_t`. -/
def sizeInc (a : Nat) : Nat := (a + 1) % SIZE_MOD

/-- Ways in which an operation of the source can fail to produce a value. -/
inductive Fault where
  | outOfRange
  | nullDeref
  | divByZero
  | typeMismatch
  | outOfFuel
  deriving DecidableEq, Repr

/-- Outcome of an operation that may fail. -/
inductive Res (α : Type) where
  | ok (a : α)
  | fault (f : Fault)
  deriving DecidableEq, Repr

/-- The quotient `a / b` in `size_t`; undefined for a zero divisor. -/
def sizeDiv (a b : Nat) : Res Nat :=
  if b = 0 then Res.fault Fault.divByZero else Res.ok (a / b)

/-- Read of `arr[i]` where `arr` holds the recorded entries of a C array and the
index expression `i` has type `int`; a read outside the recorded entries is
undefined. -/
def readAt {α : Type} (arr : List α) (i : Int) : Res α :=
  if i < 0 then Res.fault Fault.outOfRange
  else match arr[i.toNat]? with
    | some a => Res.ok a
    | none => Res.fault Fault.outOfRange

/-! ## Capstone data (types of the library, as the source reads them) -/

/-- One operand of a TriCore instruction (`cs_tricore_op`); only its kind is read. -/
structure cs_tricore_op where
  type : Nat
  deriving DecidableEq, Repr

/-- Operand payload (`cs_tricore`): the first `op_count` entries of `operands`. -/
structure cs_tricore where
  operands : List cs_tricore_op
  deriving DecidableEq, Repr

/-- Field `op_count`: the number of recorded operands. -/
def cs_tricore.op_count (t : cs_tricore) : Nat := t.operands.length

/-- Detail payload (`cs_detail`): the first `groups_count` entries of `groups`
and the architecture payload. -/
structure cs_detail where
  groups : List Nat
  tricore : cs_tricore
  deriving DecidableEq, Repr

/-- Field `groups_count`: the number of recorded groups. -/
def cs_detail.groups_count (d : cs_detail) : Nat := d.groups.length

/-- A decoded instruction (`cs_insn`); `detail` is a pointer that may be `NULL`. -/
structure cs_insn where
  address : Nat
  size : Nat
  detail : Option cs_detail
  deriving DecidableEq, Repr

/-- The decode cursor handed to `cs_disasm_iter`: `code_ptr`, `size`, `address`. -/
structure Cursor where
  code : Nat
  size : Nat
  address : Nat
  deriving DecidableEq, Repr

/-- The capstone library as the source uses it.  `cs_disasm_iter c` is `none`
when the call returns `false` and otherwise the decoded instruction together
with the cursor the call leaves behind. -/
structure Capstone where
  TRICORE_GRP_JUMP : Nat
  TRICORE_OP_IMM : Nat
  cs_disasm_iter : Cursor → Option (cs_insn × Cursor)

/-! ## Branch classifier -/

/-- Source lines 181-184: `isDirectBranch`. -/
def isDirectBranch (cs : Capstone) (inst : cs_insn) : Res Bool :=
  match inst.detail with
  | none => Res.fault Fault.nullDeref
  | some detail =>
    if detail.tricore.op_count = 1 then
      match readAt detail.tricore.operands 0 with
      | Res.ok op => Res.ok (decide (op.type = cs.TRICORE_OP_IMM))
      | Res.fault f => Res.fault f
    else Res.ok false

/-- Source lines 186-195: `isBranch`. -/
def isBranch (cs : Capstone) (inst : cs_insn) : Res Bool :=
  match inst.detail with
  | none => Res.ok false
  | some detail =>
    match readAt detail.groups ((detail.groups_count : Int) - 1) with
    | Res.ok g => if g = cs.TRICORE_GRP_JUMP then Res.ok true else Res.ok false
    | Res.fault f => Res.fault f

/-! ## Traversal statistics and the decode loop -/

/-- The three counters of a traversal. -/
structure Stats where
  instruction_count : Nat
  basic_block_count : Nat
  direct_branch_count : Nat
  deriving DecidableEq, Repr

/-- State of a traversal: the counters, and as ghost state the decoded
instructions (each with the counters after it) and the cursors at which the
decoding of a region started. -/
structure Run where
  stats : Stats
  steps : List (cs_insn × Stats)
  regions : List Cursor
  deriving DecidableEq, Repr

/-- The decoded instructions of a run, in order. -/
def Run.insns (r : Run) : List cs_insn := r.steps.map Prod.fst

/-- The counters after each decoded instruction, in order. -/
def Run.history (r : Run) : List Stats := r.steps.map Prod.snd

/-- Body of the `while` loops (source lines 66-75 and 130-139) for one decoded
instruction. -/
def account (cs : Capstone) (st : Stats) (inst : cs_insn) : Res Stats :=
  let ic := sizeInc st.instruction_count
  match isBranch cs inst with
  | Res.fault f => Res.fault f
  | Res.ok false => Res.ok ⟨ic, st.basic_block_count, st.direct_branch_count⟩
  | Res.ok true =>
    let bb := sizeInc st.basic_block_count
    match isDirectBranch cs inst with
    | Res.fault f => Res.fault f
    | Res.ok true => Res.ok ⟨ic, bb, sizeInc st.direct_branch_count⟩
    | Res.ok false => Res.ok ⟨ic, bb, st.direct_branch_count⟩

/-- The loop `while (cs_disasm_iter(handle, &code_ptr, &size, &address, inst))`
of source lines 65-76 and 129-140, from cursor `c`.  Returns the run and the
cursor at loop exit. -/
def decodeLoop (cs : Capstone) : Nat → Cursor → Run → Res (Run × Cursor)
  | 0, _, _ => Res.fault Fault.outOfFuel
  | fuel + 1, c, run =>
    match cs.cs_disasm_iter c with
    | none => Res.ok (run, c)
    | some (inst, c') =>
      match account cs run.stats inst with
      | Res.fault f => Res.fault f
      | Res.ok st => decodeLoop cs fuel c' ⟨st, run.steps ++ [(inst, st)], run.regions⟩

/-! ## ELF image (types of the libelfin library, as the source reads them) -/

/-- Section header fields read by the source. -/
structure Shdr where
  addr : Nat
  size : Nat
  deriving DecidableEq, Repr

/-- A symbol record; only its value is read. -/
structure Sym where
  value : Nat
  deriving DecidableEq, Repr

/-- A section of the image (`elf::section`).  `as_symtab` is the outcome of the
call of that name: the symbol records, or the exception `type_mismatch`. -/
structure Section where
  valid : Bool
  hdr : Shdr
  data : Nat
  is_alloc : Bool
  is_exec : Bool
  as_symtab : Res (List Sym)
  deriving DecidableEq, Repr

/-- The loaded image (`elf::elf`): its sections in order and the lookup of a
section by name. -/
structure Elf where
  sections : List Section
  get_section : String → Section

/-! ## Symbol locator -/

/-- The `for` loop of source lines 259-266: appends the in-range values to
`result`. -/
def collectSymbols (start_addr end_addr : Nat) : List Sym → List Nat → List Nat
  | [], result => result
  | symbol :: rest, result =>
    let value := toSize symbol.value
    if start_addr ≤ value ∧ value < end_addr then
      collectSymbols start_addr end_addr rest (result ++ [value])
    else
      collectSymbols start_addr end_addr rest result

/-- Local `start_addr` of source lines 100 and 253. -/
def start_addr (sec : Section) : Nat := toSize sec.hdr.addr

/-- Locals `end_addr` (source line 254) and `last_addr` (source line 101): the
`size_t` sum of the section's address and size. -/
def last_addr (sec : Section) : Nat := sizeAdd (start_addr sec) (toSize sec.hdr.size)

/-- Source lines 241-272: `getCodeSymbolsForSection`.  The call of `std::sort`
is an insertion sort. -/
def getCodeSymbolsForSection (m_elf_file : Elf) (sec : Section) : Res (List Nat) :=
  let sym_sec := m_elf_file.get_section ".symtab"
  if !sym_sec.valid then Res.ok []
  else
    match sym_sec.as_symtab with
    | Res.fault f => Res.fault f
    | Res.ok symtab =>
      Res.ok (List.insertionSort (· ≤ ·) (collectSymbols (start_addr sec) (last_addr sec) symtab []))

/-! ## Per-section strategies -/

/-- Initial state of a traversal: all counters zero, nothing recorded. -/
def Run.init : Run := ⟨⟨0, 0, 0⟩, [], []⟩

/-- Printed summary (source lines 77-85 and 142-150): the integer arguments of
the final `printf`.  The quotient of the two `double` values is not part of the
embedding. -/
structure Report where
  instruction_count : Nat
  basic_block_count : Nat
  direct_branch_count : Nat
  indirect_branch_count : Nat
  indirect_percent : Nat
  deriving DecidableEq, Repr

/-- The argument `basic_block_count - direct_branch_count` of the final `printf`. -/
def indirectCount (st : Stats) : Nat := sizeSub st.basic_block_count st.direct_branch_count

/-- Evaluation of the arguments of the final `printf`. -/
def printStatistics (st : Stats) : Res Report :=
  match sizeDiv (sizeMul (indirectCount st) 100) st.basic_block_count with
  | Res.fault f => Res.fault f
  | Res.ok pct =>
    Res.ok ⟨st.instruction_count, st.basic_block_count, st.direct_branch_count,
      indirectCount st, pct⟩

/-- Source lines 53-76: the traversal of `disassembleSectionUsingLinearSweep`
up to the final `printf`. -/
def linearSweepTraversal (cs : Capstone) (fuel : Nat) (sec : Section) : Res Run :=
  let address := toSize sec.hdr.addr
  let size := toSize sec.hdr.size
  let code_ptr := sec.data
  let c : Cursor := ⟨code_ptr, size, address⟩
  match decodeLoop cs fuel c ⟨Run.init.stats, [], [c]⟩ with
  | Res.fault f => Res.fault f
  | Res.ok (run, _) => Res.ok run

/-- Source lines 46-87: `disassembleSectionUsingLinearSweep`. -/
def disassembleSectionUsingLinearSweep (cs : Capstone) (fuel : Nat) (sec : Section) :
    Res Report :=
  match linearSweepTraversal cs fuel sec with
  | Res.fault f => Res.fault f
  | Res.ok run => printStatistics run.stats

/-- Source lines 118-127: the cursor a region's decoding starts from, for the
loop variable `symbol`, the already incremented `index` and the current
`code_ptr`. -/
def regionCursor (symbols : List Nat) (last_addr : Nat) (index symbol code_ptr : Nat) :
    Cursor :=
  let code_ptr :=
    if index < symbols.length then code_ptr + sizeSub (symbols.getD index 0) symbol
    else code_ptr
  let address := symbol
  let size :=
    if index < symbols.length then sizeSub (symbols.getD index 0) symbol
    else sizeSub last_addr symbol
  ⟨code_ptr, size, address⟩

/-- The loop `for (auto &symbol : symbols)` of source lines 117-141 over the
remaining symbols, with the current `index` and `code_ptr`. -/
def symbolLoop (cs : Capstone) (fuel : Nat) (symbols : List Nat) (last_addr : Nat) :
    List Nat → Nat → Nat → Run → Res Run
  | [], _, _, run => Res.ok run
  | symbol :: rest, index, code_ptr, run =>
    let index := index + 1
    let c := regionCursor symbols last_addr index symbol code_ptr
    match decodeLoop cs fuel c ⟨run.stats, run.steps, run.regions ++ [c]⟩ with
    | Res.fault f => Res.fault f
    | Res.ok (run', c') => symbolLoop cs fuel symbols last_addr rest index c'.code run'

/-- Source lines 100-141: the traversal of `disassembleSectionUsingSymbols` for
a given list of symbols, up to the final `printf`. -/
def traverseSymbols (cs : Capstone) (fuel : Nat) (sec : Section) (symbols : List Nat) :
    Res Run :=
  let code_ptr := sec.data
  symbolLoop cs fuel symbols (last_addr sec) symbols 0 code_ptr Run.init

/-- Source lines 91-141: the traversal of `disassembleSectionUsingSymbols` up to
the final `printf`. -/
def symbolsTraversal (cs : Capstone) (fuel : Nat) (m_elf_file : Elf) (sec : Section) :
    Res Run :=
  match getCodeSymbolsForSection m_elf_file sec with
  | Res.fault f => Res.fault f
  | Res.ok symbols => traverseSymbols cs fuel sec symbols

/-- Source lines 89-152: `disassembleSectionUsingSymbols`. -/
def disassembleSectionUsingSymbols (cs : Capstone) (fuel : Nat) (m_elf_file : Elf)
    (sec : Section) : Res Report :=
  match symbolsTraversal cs fuel m_elf_file sec with
  | Res.fault f => Res.fault f
  | Res.ok run => printStatistics run.stats

/-! ## Image scanners -/

/-- The loop of source lines 165-169 over the remaining sections; `log` holds
the sections traversed so far with their summaries. -/
def scanSymbols (cs : Capstone) (fuel : Nat) (m_elf_file : Elf) :
    List Section → List (Section × Report) → Res (List (Section × Report))
  | [], log => Res.ok log
  | sec :: rest, log =>
    if sec.is_alloc && sec.is_exec then
      match disassembleSectionUsingSymbols cs fuel m_elf_file sec with
      | Res.fault f => Res.fault f
      | Res.ok r => scanSymbols cs fuel m_elf_file rest (log ++ [(sec, r)])
    else scanSymbols cs fuel m_elf_file rest log

/-- Source lines 163-170: `disassembleCodeUsingSymbols`. -/
def disassembleCodeUsingSymbols (cs : Capstone) (fuel : Nat) (m_elf_file : Elf) :
    Res (List (Section × Report)) :=
  scanSymbols cs fuel m_elf_file m_elf_file.sections []

/-- The loop of source lines 174-178 over the remaining sections; `log` holds
the sections traversed so far with their summaries. -/
def scanLinearSweep (cs : Capstone) (fuel : Nat) :
    List Section → List (Section × Report) → Res (List (Section × Report))
  | [], log => Res.ok log
  | sec :: rest, log =>
    if sec.is_alloc && sec.is_exec then
      match disassembleSectionUsingLinearSweep cs fuel sec with
      | Res.fault f => Res.fault f
      | Res.ok r => scanLinearSweep cs fuel rest (log ++ [(sec, r)])
    else scanLinearSweep cs fuel rest log

/-- Source lines 172-179: `disassembleCodeUsingLinearSweep`. -/
def disassembleCodeUsingLinearSweep (cs : Capstone) (fuel : Nat)
    (m_elf_file : Elf) : Res (List (Section × Report)) :=
  scanLinearSweep cs fuel m_elf_file.sections []

/-! ## Assumptions on the decoder -/

/-- Every successful call of `cs_disasm_iter` consumes at least one byte: the
remaining length it leaves is smaller than the one it was given. -/
def Advances (cs : Capstone) : Prop :=
  ∀ c inst c', cs.cs_disasm_iter c = some (inst, c') → c'.size < c.size

/-- The assumption stated in the source at line 190: each decoded instruction
that carries detail belongs to at least one group. -/
def GroupAssumption (cs : Capstone) : Prop :=
  ∀ c inst c' d, cs.cs_disasm_iter c = some (inst, c') → inst.detail = some d → d.groups ≠ []

/-! ## Reference definitions, following the specification -/

/-- Reference (specification 4.2): the instruction has exactly one operand and
that operand is an immediate. -/
def singleImmediateOperand (cs : Capstone) (inst : cs_insn) : Bool :=
  match inst.detail with
  | none => false
  | some d =>
    match d.tricore.operands with
    | [op] => decide (op.type = cs.TRICORE_OP_IMM)
    | _ => false

/-- Reference (specification 4.2): the instruction has detail whose group list
is non-empty and whose last group marker is the jump group. -/
def lastGroupIsJump (cs : Capstone) (inst : cs_insn) : Prop :=
  ∃ d, inst.detail = some d ∧ d.groups ≠ [] ∧ d.groups.getLast? = some cs.TRICORE_GRP_JUMP

/-- Reference counts (specification 4.4) over a sequence of decoded
instructions: how many there are, for how many `isBranch` holds, and for how
many `isBranch` holds and the single operand is an immediate. -/
def refStats (cs : Capstone) (l : List cs_insn) : Stats :=
  ⟨l.length,
   l.countP (fun i => decide (isBranch cs i = Res.ok true)),
   l.countP (fun i => decide (isBranch cs i = Res.ok true) && singleImmediateOperand cs i)⟩

/-- Reference: the instructions that successive calls of `cs_disasm_iter`
return when started from cursor `c`, until the first call that fails. -/
def decodedFrom (cs : Capstone) : Nat → Cursor → List cs_insn
  | 0, _ => []
  | fuel + 1, c =>
    match cs.cs_disasm_iter c with
    | none => []
    | some (inst, c') => inst :: decodedFrom cs fuel c'

/-- Reference decode regions (specification 3), as pairs of start address and
length: region `i` runs from entry `i` to entry `i+1`, the last one to the end
of the section. -/
def specRegions (last_addr : Nat) : List Nat → List (Nat × Nat)
  | [] => []
  | [e] => [(e, last_addr - e)]
  | e :: e' :: rest => (e, e' - e) :: specRegions last_addr (e' :: rest)

/-- The recorded steps `steps` lead from counters `st` to counters `st'` by
the loop body: each recorded instruction is accounted for in turn. -/
def Accounted (cs : Capstone) : Stats → List (cs_insn × Stats) → Stats → Prop
  | st, [], st' => st' = st
  | st, (inst, s) :: rest, st' => account cs st inst = Res.ok s ∧ Accounted cs s rest st'

/-- The three counters are ordered and the printed indirect count is their
exact difference. -/
def Stats.Consistent (st : Stats) : Prop :=
  st.direct_branch_count ≤ st.basic_block_count ∧
  st.basic_block_count ≤ st.instruction_count ∧
  indirectCount st + st.direct_branch_count = st.basic_block_count

/-- The counters reduced to `size_t`. -/
def wrapStats (st : Stats) : Stats :=
  ⟨st.instruction_count % SIZE_MOD, st.basic_block_count % SIZE_MOD,
   st.direct_branch_count % SIZE_MOD⟩

/-- The cursors at which the regions of a completed traversal started; empty
for a traversal that did not complete. -/
def regionsOf : Res Run → List Cursor
  | Res.ok run => run.regions
  | Res.fault _ => []

/-- The sections a completed scan traversed, in order. -/
def traversedSections : Res (List (Section × Report)) → Option (List Section)
  | Res.ok log => some (log.map Prod.fst)
  | Res.fault _ => none

/-- The final counters of a completed traversal. -/
def statsOf : Res Run → Option Stats
  | Res.ok run => some run.stats
  | Res.fault _ => none

/-- The in-range symbol values in storage order: what the loop of source lines
259-266 keeps. -/
def inRangeValues (sec : Section) (symtab : List Sym) : List Nat :=
  (symtab.map (fun s => toSize s.value)).filter
    (fun v => decide (start_addr sec ≤ v ∧ v < last_addr sec))

/-! ## Example inputs -/

/-- A decoder whose instructions are all four bytes long.  The instruction at
code pointer `p` is a jump with a single immediate operand when `jumpAt p`, and
otherwise an instruction of group 7 with two register operands. -/
def fixedWidth (jumpAt : Nat → Bool) (c : Cursor) : Option (cs_insn × Cursor) :=
  if c.size < 4 then none
  else some (⟨c.address, 4,
      some (if jumpAt c.code then ⟨[1], ⟨[⟨2⟩]⟩⟩ else ⟨[7], ⟨[⟨1⟩, ⟨1⟩]⟩⟩)⟩,
    ⟨c.code + 4, c.size - 4, c.address + 4⟩)

/-- Capstone with the jump group 1, the immediate operand kind 2 and the
decoder `fixedWidth`. -/
def exampleCapstone (jumpAt : Nat → Bool) : Capstone := ⟨1, 2, fixedWidth jumpAt⟩

/-- A code section of three instructions at address 0x1000, stored at 0x5000. -/
def threeInsnSection : Section :=
  ⟨true, ⟨0x1000, 12⟩, 0x5000, true, true, Res.fault Fault.typeMismatch⟩

/-- The decoder over `threeInsnSection`: only the third instruction is a jump. -/
def threeInsnCapstone : Capstone := exampleCapstone (fun p => p == 0x5008)

/-- The code section `[0x100, 0x1A0)`, stored at 0x5000. -/
def scenarioSection : Section :=
  ⟨true, ⟨0x100, 0xA0⟩, 0x5000, true, true, Res.fault Fault.typeMismatch⟩

/-- A decoder that finds no jump anywhere. -/
def plainCapstone : Capstone := exampleCapstone (fun _ => false)

/-- A symbol table section holding the given values. -/
def symtabSection (values : List Nat) : Section :=
  ⟨true, ⟨0, 0⟩, 0, false, false, Res.ok (values.map Sym.mk)⟩

/-- A code section of 40 instructions at address 0x100, stored at 0x7000, where
`threeInsnCapstone` decodes no jump. -/
def quietSection : Section :=
  ⟨true, ⟨0x100, 0xA0⟩, 0x7000, true, true, Res.fault Fault.typeMismatch⟩

/-- A data section: allocated, not executable. -/
def dataSection : Section :=
  ⟨true, ⟨0x2000, 16⟩, 0x6000, true, false, Res.fault Fault.typeMismatch⟩

/-- An image with the given sections whose symbol table holds the given values. -/
def imageWithSymbols (sections : List Section) (values : List Nat) : Elf :=
  ⟨sections, fun _ => symtabSection values⟩

/-- An image with the given sections and no symbol table: the lookup returns an
invalid section. -/
def imageWithoutSymbols (sections : List Section) : Elf :=
  ⟨sections, fun _ => ⟨false, ⟨0, 0⟩, 0, false, false, Res.fault Fault.typeMismatch⟩⟩

/-! ## Machine arithmetic: basic facts -/

theorem sizeSub_eq_sub {a b : Nat} (hba : b ≤ a) (ha : a < SIZE_MOD) : sizeSub a b = a - b := by
  unfold sizeSub
  unfold SIZE_MOD at *
  omega

theorem sizeInc_mod (a : Nat) : sizeInc (a % SIZE_MOD) = (a + 1) % SIZE_MOD := by
  unfold sizeInc
  unfold SIZE_MOD
  omega

theorem toSize_lt (x : Nat) : toSize x < SIZE_MOD := by
  unfold toSize
  exact Nat.mod_lt _ (by unfold SIZE_MOD; decide)

theorem sizeAdd_lt (a b : Nat) : sizeAdd a b < SIZE_MOD := by
  unfold sizeAdd
  exact Nat.mod_lt _ (by unfold SIZE_MOD; decide)

/-! ## The branch classifier and the loop body -/

theorem isDirectBranch_of_detail (cs : Capstone) (inst : cs_insn) (d : cs_detail)
    (hd : inst.detail = some d) :
    isDirectBranch cs inst = Res.ok (singleImmediateOperand cs inst) := by
  unfold isDirectBranch singleImmediateOperand
  rw [hd]
  rcases h : d.tricore.operands with _ | ⟨op, _ | ⟨op2, tl⟩⟩
  · simp [cs_tricore.op_count, h]
  · simp [cs_tricore.op_count, h, readAt]
  · simp [cs_tricore.op_count, h]

theorem isBranch_true_detail (cs : Capstone) (inst : cs_insn)
    (h : isBranch cs inst = Res.ok true) : ∃ d, inst.detail = some d := by
  unfold isBranch at h
  cases hd : inst.detail with
  | none => rw [hd] at h; simp at h
  | some d => exact ⟨d, rfl⟩

theorem account_of_isBranch (cs : Capstone) (st : Stats) (inst : cs_insn) (b : Bool)
    (h : isBranch cs inst = Res.ok b) :
    account cs st inst = Res.ok
      ⟨sizeInc st.instruction_count,
       if b then sizeInc st.basic_block_count else st.basic_block_count,
       if (b && singleImmediateOperand cs inst) then sizeInc st.direct_branch_count
       else st.direct_branch_count⟩ := by
  unfold account
  cases b with
  | false => simp [h]
  | true =>
    obtain ⟨d, hd⟩ := isBranch_true_detail cs inst h
    rw [h, isDirectBranch_of_detail cs inst d hd]
    cases singleImmediateOperand cs inst <;> simp

theorem isBranch_of_account (cs : Capstone) (st s : Stats) (inst : cs_insn)
    (h : account cs st inst = Res.ok s) : ∃ b, isBranch cs inst = Res.ok b := by
  unfold account at h
  cases hb : isBranch cs inst with
  | ok b => exact ⟨b, rfl⟩
  | fault f => rw [hb] at h; simp at h

/-! ## The counters against the reference counts -/

theorem refStats_snoc (cs : Capstone) (pre : List cs_insn) (inst : cs_insn) (b : Bool)
    (h : isBranch cs inst = Res.ok b) :
    refStats cs (pre ++ [inst]) =
      ⟨(refStats cs pre).instruction_count + 1,
       (refStats cs pre).basic_block_count + (if b then 1 else 0),
       (refStats cs pre).direct_branch_count +
         (if (b && singleImmediateOperand cs inst) then 1 else 0)⟩ := by
  cases b <;> cases hs : singleImmediateOperand cs inst <;>
    simp [refStats, List.countP_append, List.countP_cons, h, hs]

theorem account_wrapStats (cs : Capstone) (pre : List cs_insn) (inst : cs_insn) (s : Stats)
    (h : account cs (wrapStats (refStats cs pre)) inst = Res.ok s) :
    s = wrapStats (refStats cs (pre ++ [inst])) := by
  obtain ⟨b, hb⟩ := isBranch_of_account cs _ s inst h
  rw [account_of_isBranch cs _ inst b hb] at h
  rw [refStats_snoc cs pre inst b hb]
  injection h with h
  rw [← h]
  cases b <;> cases singleImmediateOperand cs inst <;>
    simp [wrapStats, sizeInc_mod]

theorem accounted_append (cs : Capstone) (xs ys : List (cs_insn × Stats)) (st st' : Stats) :
    Accounted cs st (xs ++ ys) st' ↔ ∃ mid, Accounted cs st xs mid ∧ Accounted cs mid ys st' := by
  induction xs generalizing st with
  | nil => simp [Accounted]
  | cons x xs ih =>
    obtain ⟨inst, s⟩ := x
    show (account cs st inst = Res.ok s ∧ Accounted cs s (xs ++ ys) st') ↔
      ∃ mid, (account cs st inst = Res.ok s ∧ Accounted cs s xs mid) ∧ Accounted cs mid ys st'
    rw [ih]
    constructor
    · rintro ⟨h1, mid, h2, h3⟩
      exact ⟨mid, ⟨h1, h2⟩, h3⟩
    · rintro ⟨mid, ⟨h1, h2⟩, h3⟩
      exact ⟨h1, mid, h2, h3⟩

theorem accounted_wrapStats (cs : Capstone) (new : List (cs_insn × Stats)) :
    ∀ (pre : List cs_insn) (st' : Stats),
      Accounted cs (wrapStats (refStats cs pre)) new st' →
      st' = wrapStats (refStats cs (pre ++ new.map Prod.fst)) ∧
      ∀ s ∈ new.map Prod.snd, ∃ q : List cs_insn,
        q.length ≤ pre.length + new.length ∧ s = wrapStats (refStats cs q) := by
  induction new with
  | nil =>
    intro pre st' h
    simp [Accounted] at h
    simp [h]
  | cons x xs ih =>
    intro pre st' h
    obtain ⟨inst, s⟩ := x
    obtain ⟨h1, h2⟩ := h
    have hs := account_wrapStats cs pre inst s h1
    rw [hs] at h2
    obtain ⟨hfin, hall⟩ := ih (pre ++ [inst]) st' h2
    constructor
    · simpa using hfin
    · intro t ht
      simp only [List.map_cons, List.mem_cons] at ht
      rcases ht with rfl | ht
      · exact ⟨pre ++ [inst], by simp, hs⟩
      · obtain ⟨q, hq, hqs⟩ := hall t ht
        exact ⟨q, by simp at hq ⊢; omega, hqs⟩

theorem refStats_le (cs : Capstone) (q : List cs_insn) :
    (refStats cs q).direct_branch_count ≤ (refStats cs q).basic_block_count ∧
    (refStats cs q).basic_block_count ≤ (refStats cs q).instruction_count := by
  constructor
  · apply List.countP_mono_left
    intro x _ hx
    simp only [Bool.and_eq_true] at hx
    exact hx.1
  · exact List.countP_le_length _

theorem wrapStats_refStats (cs : Capstone) (q : List cs_insn) (hq : q.length < SIZE_MOD) :
    wrapStats (refStats cs q) = refStats cs q := by
  obtain ⟨h1, h2⟩ := refStats_le cs q
  have h3 : (refStats cs q).instruction_count = q.length := rfl
  unfold wrapStats
  rw [Nat.mod_eq_of_lt (by omega), Nat.mod_eq_of_lt (by omega), Nat.mod_eq_of_lt (by omega)]

theorem refStats_consistent (cs : Capstone) (q : List cs_insn) (hq : q.length < SIZE_MOD) :
    (refStats cs q).Consistent := by
  obtain ⟨h1, h2⟩ := refStats_le cs q
  have h3 : (refStats cs q).instruction_count = q.length := rfl
  refine ⟨h1, h2, ?_⟩
  unfold indirectCount
  rw [sizeSub_eq_sub h1 (by omega)]
  omega

/-! ## Reading the last group -/

theorem readAt_last {α : Type} (l : List α) (hl : l ≠ []) :
    ∃ a, l.getLast? = some a ∧ readAt l ((l.length : Int) - 1) = Res.ok a := by
  have hpos : 0 < l.length := List.length_pos.mpr hl
  have hidx : ((l.length : Int) - 1).toNat = l.length - 1 := by omega
  have hnn : ¬ ((l.length : Int) - 1 < 0) := by omega
  refine ⟨l.getLast hl, List.getLast?_eq_getLast l hl, ?_⟩
  unfold readAt
  rw [if_neg hnn, hidx, ← List.getLast?_eq_getElem?, List.getLast?_eq_getLast l hl]

theorem readAt_nil {α : Type} (i : Int) : readAt ([] : List α) i = Res.fault Fault.outOfRange := by
  unfold readAt
  split <;> simp

theorem isBranch_defined (cs : Capstone) (inst : cs_insn)
    (h : ∀ d, inst.detail = some d → d.groups ≠ []) : ∃ b, isBranch cs inst = Res.ok b := by
  unfold isBranch
  cases hd : inst.detail with
  | none => exact ⟨false, rfl⟩
  | some d =>
    obtain ⟨g, _, hg⟩ := readAt_last d.groups (h d hd)
    simp only [cs_detail.groups_count, hg]
    by_cases hj : g = cs.TRICORE_GRP_JUMP
    · exact ⟨true, by simp [hj]⟩
    · exact ⟨false, by simp [hj]⟩

theorem isBranch_true_iff (cs : Capstone) (inst : cs_insn) :
    isBranch cs inst = Res.ok true ↔ lastGroupIsJump cs inst := by
  unfold isBranch lastGroupIsJump
  cases hd : inst.detail with
  | none => simp
  | some d =>
    by_cases hl : d.groups = []
    · simp [cs_detail.groups_count, hl, readAt_nil]
    · obtain ⟨g, hlast, hg⟩ := readAt_last d.groups hl
      simp only [cs_detail.groups_count, hg, Option.some.injEq, exists_eq_left', hlast]
      by_cases hj : g = cs.TRICORE_GRP_JUMP
      · simp [hj, hl]
      · simp [hj]

/-! ## The decode loop -/

theorem decodeLoop_spec (cs : Capstone) :
    ∀ (fuel : Nat) (c : Cursor) (run r : Run) (c' : Cursor),
      decodeLoop cs fuel c run = Res.ok (r, c') →
      ∃ new : List (cs_insn × Stats),
        r.steps = run.steps ++ new ∧ r.regions = run.regions ∧
        Accounted cs run.stats new r.stats ∧
        (Advances cs → new.length + c'.size ≤ c.size) := by
  intro fuel
  induction fuel with
  | zero => intro c run r c' h; simp [decodeLoop] at h
  | succ fuel ih =>
    intro c run r c' h
    unfold decodeLoop at h
    cases hit : cs.cs_disasm_iter c with
    | none =>
      rw [hit] at h
      simp only [Res.ok.injEq, Prod.mk.injEq] at h
      obtain ⟨rfl, rfl⟩ := h
      exact ⟨[], by simp, rfl, rfl, fun _ => by simp⟩
    | some p =>
      obtain ⟨inst, c1⟩ := p
      simp only [hit] at h
      cases hacc : account cs run.stats inst with
      | fault f => simp [hacc] at h
      | ok st =>
        simp only [hacc] at h
        obtain ⟨new, h1, h2, h3, h4⟩ := ih c1 _ r c' h
        refine ⟨(inst, st) :: new, ?_, h2, ⟨hacc, h3⟩, ?_⟩
        · simpa using h1
        · intro hadv
          have := h4 hadv
          have := hadv c inst c1 hit
          simp only [List.length_cons]
          omega

theorem decodeLoop_ok (cs : Capstone) (hadv : Advances cs) (hgrp : GroupAssumption cs) :
    ∀ (fuel : Nat) (c : Cursor) (run : Run), c.size < fuel →
      ∃ r c', decodeLoop cs fuel c run = Res.ok (r, c') := by
  intro fuel
  induction fuel with
  | zero => intro c run h; omega
  | succ fuel ih =>
    intro c run h
    unfold decodeLoop
    cases hit : cs.cs_disasm_iter c with
    | none => exact ⟨run, c, rfl⟩
    | some p =>
      obtain ⟨inst, c1⟩ := p
      obtain ⟨b, hb⟩ := isBranch_defined cs inst (fun d hd => hgrp c inst c1 d hit hd)
      have hlt := hadv c inst c1 hit
      simp only [account_of_isBranch cs run.stats inst b hb]
      exact ih c1 _ (by omega)

theorem decodeLoop_insns (cs : Capstone) :
    ∀ (fuel : Nat) (c : Cursor) (run r : Run) (c' : Cursor),
      decodeLoop cs fuel c run = Res.ok (r, c') →
      r.insns = run.insns ++ decodedFrom cs fuel c := by
  intro fuel
  induction fuel with
  | zero => intro c run r c' h; simp [decodeLoop] at h
  | succ fuel ih =>
    intro c run r c' h
    unfold decodeLoop at h
    unfold decodedFrom
    cases hit : cs.cs_disasm_iter c with
    | none =>
      rw [hit] at h
      simp only [Res.ok.injEq, Prod.mk.injEq] at h
      obtain ⟨rfl, rfl⟩ := h
      simp
    | some p =>
      obtain ⟨inst, c1⟩ := p
      simp only [hit] at h
      cases hacc : account cs run.stats inst with
      | fault f => simp [hacc] at h
      | ok st =>
        simp only [hacc] at h
        rw [ih c1 _ r c' h]
        simp [Run.insns]

/-! ## The symbol locator -/

theorem collectSymbols_eq (start_addr end_addr : Nat) (symtab : List Sym) :
    ∀ result : List Nat,
      collectSymbols start_addr end_addr symtab result =
        result ++ (symtab.map (fun s => toSize s.value)).filter
          (fun v => decide (start_addr ≤ v ∧ v < end_addr)) := by
  induction symtab with
  | nil => intro result; simp [collectSymbols]
  | cons s rest ih =>
    intro result
    unfold collectSymbols
    by_cases h : start_addr ≤ toSize s.value ∧ toSize s.value < end_addr
    · simp only [h, and_self, if_true, ih, List.map_cons]
      rw [List.filter_cons_of_pos (by simpa using h)]
      simp
    · simp only [h, if_false, ih, List.map_cons]
      rw [List.filter_cons_of_neg (by simpa using h)]

theorem getCodeSymbolsForSection_eq (m_elf_file : Elf) (sec : Section) (symtab : List Sym)
    (hvalid : (m_elf_file.get_section ".symtab").valid = true)
    (htab : (m_elf_file.get_section ".symtab").as_symtab = Res.ok symtab) :
    getCodeSymbolsForSection m_elf_file sec =
      Res.ok (List.insertionSort (· ≤ ·)
        ((symtab.map (fun s => toSize s.value)).filter
          (fun v => decide (start_addr sec ≤ v ∧ v < last_addr sec)))) := by
  unfold getCodeSymbolsForSection
  simp [hvalid, htab, collectSymbols_eq]

theorem getCodeSymbolsForSection_sorted (m_elf_file : Elf) (sec : Section) (symbols : List Nat)
    (h : getCodeSymbolsForSection m_elf_file sec = Res.ok symbols) :
    symbols.Sorted (· ≤ ·) ∧ ∀ e ∈ symbols, start_addr sec ≤ e ∧ e < last_addr sec := by
  unfold getCodeSymbolsForSection at h
  by_cases hv : (m_elf_file.get_section ".symtab").valid = true
  · cases htab : (m_elf_file.get_section ".symtab").as_symtab with
    | fault f => simp [hv, htab] at h
    | ok symtab =>
      simp only [hv, htab, Bool.not_true, Bool.false_eq_true, if_false, Res.ok.injEq,
        collectSymbols_eq, List.nil_append] at h
      subst h
      refine ⟨List.sorted_insertionSort _ _, ?_⟩
      intro e he
      rw [List.mem_insertionSort] at he
      simpa using (List.mem_filter.mp he).2
  · simp only [hv, Bool.not_false, if_true, Res.ok.injEq] at h
    subst h
    simp

/-! ## The loop over the symbols -/

theorem drop_succ_of_drop {symbols rest : List Nat} {index s : Nat}
    (h : symbols.drop index = s :: rest) : symbols.drop (index + 1) = rest := by
  have : symbols.drop (index + 1) = (symbols.drop index).drop 1 := by
    rw [List.drop_drop]
  rw [this, h]
  rfl

theorem regionCursor_last {symbols : List Nat} {index s : Nat} (last code_ptr : Nat)
    (h : symbols.drop index = [s]) :
    regionCursor symbols last (index + 1) s code_ptr = ⟨code_ptr, sizeSub last s, s⟩ := by
  have hlen : (symbols.drop index).length = 1 := by rw [h]; rfl
  rw [List.length_drop] at hlen
  have hnot : ¬ (index + 1 < symbols.length) := by omega
  unfold regionCursor
  simp only [hnot, if_false]

theorem regionCursor_next {symbols rest : List Nat} {index s next : Nat} (last code_ptr : Nat)
    (h : symbols.drop index = s :: next :: rest) :
    regionCursor symbols last (index + 1) s code_ptr =
      ⟨code_ptr + sizeSub next s, sizeSub next s, s⟩ := by
  have hlen : (symbols.drop index).length = rest.length + 2 := by rw [h]; rfl
  rw [List.length_drop] at hlen
  have hlt : index + 1 < symbols.length := by omega
  have hget : symbols[index + 1]? = some next := by
    have : (symbols.drop index)[1]? = some next := by rw [h]; simp
    rwa [List.getElem?_drop] at this
  have hgetD : symbols.getD (index + 1) 0 = next := by
    rw [List.getD_eq_getElem?_getD, hget]
    rfl
  unfold regionCursor
  simp only [hlt, if_true, hgetD]

theorem symbolLoop_spec (cs : Capstone) (hadv : Advances cs) (fuel : Nat) (symbols : List Nat)
    (last : Nat) (hlast : last < SIZE_MOD) :
    ∀ (rest : List Nat) (index code_ptr : Nat) (run r : Run),
      symbols.drop index = rest →
      rest.Sorted (· ≤ ·) → (∀ e ∈ rest, e < last) →
      symbolLoop cs fuel symbols last rest index code_ptr run = Res.ok r →
      ∃ new : List (cs_insn × Stats),
        r.steps = run.steps ++ new ∧ Accounted cs run.stats new r.stats ∧
        new.length + rest.headD last ≤ last ∧
        r.regions.map (fun c => (c.address, c.size)) =
          run.regions.map (fun c => (c.address, c.size)) ++ specRegions last rest := by
  intro rest
  induction rest with
  | nil =>
    intro index code_ptr run r _ _ _ h
    simp only [symbolLoop, Res.ok.injEq] at h
    subst h
    exact ⟨[], by simp, rfl, by simp, by simp [specRegions]⟩
  | cons s rest ih =>
    intro index code_ptr run r hdrop hsorted hin h
    unfold symbolLoop at h
    have hs : s < last := hin s (List.mem_cons_self _ _)
    have hsorted' : rest.Sorted (· ≤ ·) := hsorted.of_cons
    have hin' : ∀ e ∈ rest, e < last := fun e he => hin e (List.mem_cons_of_mem _ he)
    cases hdec : decodeLoop cs fuel (regionCursor symbols last (index + 1) s code_ptr)
        ⟨run.stats, run.steps, run.regions ++
          [regionCursor symbols last (index + 1) s code_ptr]⟩ with
    | fault f => simp [hdec] at h
    | ok p =>
      obtain ⟨run1, c1⟩ := p
      simp only [hdec] at h
      obtain ⟨new1, hsteps1, hreg1, hacc1, hlen1⟩ := decodeLoop_spec cs fuel _ _ run1 c1 hdec
      obtain ⟨new2, hsteps2, hacc2, hlen2, hreg2⟩ :=
        ih (index + 1) c1.code run1 r (drop_succ_of_drop hdrop) hsorted' hin' h
      have hlen1' := hlen1 hadv
      refine ⟨new1 ++ new2, ?_, ?_, ?_, ?_⟩
      · rw [hsteps2, hsteps1]
        simp
      · exact (accounted_append cs new1 new2 run.stats r.stats).mpr ⟨run1.stats, hacc1, hacc2⟩
      · cases rest with
        | nil =>
          rw [regionCursor_last last code_ptr hdrop] at hlen1'
          simp only [List.headD_nil, List.headD_cons, List.length_append] at hlen2 ⊢
          have := sizeSub_eq_sub (Nat.le_of_lt hs) hlast
          simp only at hlen1'
          omega
        | cons next rest =>
          rw [regionCursor_next last code_ptr hdrop] at hlen1'
          have hle : s ≤ next := List.rel_of_sorted_cons hsorted next (List.mem_cons_self _ _)
          have hn : next < last := hin' next (List.mem_cons_self _ _)
          have := sizeSub_eq_sub hle (Nat.lt_trans hn hlast)
          simp only [List.headD_cons, List.length_append] at hlen2 ⊢
          simp only at hlen1'
          omega
      · rw [hreg2, hreg1]
        cases rest with
        | nil =>
          rw [regionCursor_last last code_ptr hdrop]
          simp [specRegions, sizeSub_eq_sub (Nat.le_of_lt hs) hlast]
        | cons next rest =>
          rw [regionCursor_next last code_ptr hdrop]
          have hle : s ≤ next := List.rel_of_sorted_cons hsorted next (List.mem_cons_self _ _)
          have hn : next < last := hin' next (List.mem_cons_self _ _)
          simp [specRegions, sizeSub_eq_sub hle (Nat.lt_trans hn hlast)]

theorem symbolLoop_insns (cs : Capstone) (fuel : Nat) (symbols : List Nat) (last : Nat) :
    ∀ (rest : List Nat) (index code_ptr : Nat) (run r : Run),
      symbolLoop cs fuel symbols last rest index code_ptr run = Res.ok r →
      ∃ regs : List Cursor, r.regions = run.regions ++ regs ∧
        r.insns = run.insns ++ regs.flatMap (decodedFrom cs fuel) := by
  intro rest
  induction rest with
  | nil =>
    intro index code_ptr run r h
    simp only [symbolLoop, Res.ok.injEq] at h
    subst h
    exact ⟨[], by simp, by simp⟩
  | cons s rest ih =>
    intro index code_ptr run r h
    unfold symbolLoop at h
    cases hdec : decodeLoop cs fuel (regionCursor symbols last (index + 1) s code_ptr)
        ⟨run.stats, run.steps, run.regions ++
          [regionCursor symbols last (index + 1) s code_ptr]⟩ with
    | fault f => simp [hdec] at h
    | ok p =>
      obtain ⟨run1, c1⟩ := p
      simp only [hdec] at h
      obtain ⟨_, _, hreg1, _, _⟩ := decodeLoop_spec cs fuel _ _ run1 c1 hdec
      have hins1 := decodeLoop_insns cs fuel _ _ run1 c1 hdec
      obtain ⟨regs, hreg2, hins2⟩ := ih (index + 1) c1.code run1 r h
      refine ⟨regionCursor symbols last (index + 1) s code_ptr :: regs, ?_, ?_⟩
      · rw [hreg2, hreg1]
        simp
      · rw [hins2, hins1]
        simp [Run.insns]

theorem symbolLoop_ok (cs : Capstone) (hadv : Advances cs) (hgrp : GroupAssumption cs)
    (fuel : Nat) (symbols : List Nat) (last : Nat) (hlast : last < SIZE_MOD) :
    ∀ (rest : List Nat) (index code_ptr : Nat) (run : Run),
      symbols.drop index = rest →
      rest.Sorted (· ≤ ·) → (∀ e ∈ rest, e < last ∧ last < e + fuel) →
      ∃ r, symbolLoop cs fuel symbols last rest index code_ptr run = Res.ok r := by
  intro rest
  induction rest with
  | nil => intro index code_ptr run _ _ _; exact ⟨run, rfl⟩
  | cons s rest ih =>
    intro index code_ptr run hdrop hsorted hin
    unfold symbolLoop
    obtain ⟨hs, hsf⟩ := hin s (List.mem_cons_self _ _)
    have hsize : (regionCursor symbols last (index + 1) s code_ptr).size < fuel := by
      cases rest with
      | nil =>
        rw [regionCursor_last last code_ptr hdrop]
        have := sizeSub_eq_sub (Nat.le_of_lt hs) hlast
        simp only
        omega
      | cons next rest =>
        rw [regionCursor_next last code_ptr hdrop]
        have hle : s ≤ next := List.rel_of_sorted_cons hsorted next (List.mem_cons_self _ _)
        have hn : next < last := (hin next (List.mem_cons_of_mem _ (List.mem_cons_self _ _))).1
        have := sizeSub_eq_sub hle (Nat.lt_trans hn hlast)
        simp only
        omega
    obtain ⟨run1, c1, hdec⟩ := decodeLoop_ok cs hadv hgrp fuel _
      ⟨run.stats, run.steps, run.regions ++
        [regionCursor symbols last (index + 1) s code_ptr]⟩ hsize
    simp only [hdec]
    exact ih (index + 1) c1.code run1 (drop_succ_of_drop hdrop) hsorted.of_cons
      (fun e he => hin e (List.mem_cons_of_mem _ he))

/-! ## Complete traversals -/

theorem stats_of_accounted (cs : Capstone) (steps : List (cs_insn × Stats)) (st : Stats)
    (hacc : Accounted cs Run.init.stats steps st) (hlen : steps.length < SIZE_MOD) :
    st = refStats cs (steps.map Prod.fst) ∧ st.Consistent ∧
      ∀ s ∈ steps.map Prod.snd, s.Consistent := by
  have hinit : Run.init.stats = wrapStats (refStats cs []) := by
    simp [Run.init, wrapStats, refStats]
  rw [hinit] at hacc
  obtain ⟨hfin, hall⟩ := accounted_wrapStats cs steps [] st hacc
  have hmap : (steps.map Prod.fst).length < SIZE_MOD := by simpa using hlen
  simp only [List.nil_append] at hfin
  rw [wrapStats_refStats cs _ hmap] at hfin
  refine ⟨hfin, ?_, ?_⟩
  · rw [hfin]
    exact refStats_consistent cs _ hmap
  · intro s hs
    obtain ⟨q, hq, hqs⟩ := hall s hs
    have hq' : q.length < SIZE_MOD := by simp at hq; omega
    rw [hqs, wrapStats_refStats cs q hq']
    exact refStats_consistent cs q hq'

theorem init_consistent : Run.init.stats.Consistent := by
  simp [Run.init, Stats.Consistent, indirectCount, sizeSub, SIZE_MOD]

theorem linearSweep_run (cs : Capstone) (fuel : Nat) (sec : Section)
    (hadv : Advances cs) (hgrp : GroupAssumption cs) (hfuel : toSize sec.hdr.size < fuel) :
    ∃ run, linearSweepTraversal cs fuel sec = Res.ok run ∧
      Accounted cs Run.init.stats run.steps run.stats ∧ run.steps.length < SIZE_MOD ∧
      run.regions = [⟨sec.data, toSize sec.hdr.size, toSize sec.hdr.addr⟩] := by
  obtain ⟨run, c', hdec⟩ := decodeLoop_ok cs hadv hgrp fuel
    ⟨sec.data, toSize sec.hdr.size, toSize sec.hdr.addr⟩
    ⟨Run.init.stats, [], [⟨sec.data, toSize sec.hdr.size, toSize sec.hdr.addr⟩]⟩ hfuel
  obtain ⟨new, hsteps, hreg, hacc, hlen⟩ := decodeLoop_spec cs fuel _ _ run c' hdec
  have hlen' := hlen hadv
  have hsz := toSize_lt sec.hdr.size
  simp only [List.nil_append] at hsteps
  refine ⟨run, ?_, ?_, ?_, hreg⟩
  · simp [linearSweepTraversal, hdec]
  · rw [hsteps]; exact hacc
  · rw [hsteps]
    simp only at hlen'
    omega

theorem last_addr_sub_le (sec : Section) (e : Nat) (h1 : start_addr sec ≤ e)
    (h2 : e < last_addr sec) : last_addr sec - e ≤ toSize sec.hdr.size := by
  unfold last_addr sizeAdd at *
  have ha := toSize_lt sec.hdr.addr
  have hs := toSize_lt sec.hdr.size
  unfold start_addr at *
  unfold SIZE_MOD at *
  omega

theorem traverseSymbols_run (cs : Capstone) (fuel : Nat) (sec : Section) (symbols : List Nat)
    (hadv : Advances cs) (hgrp : GroupAssumption cs) (hfuel : toSize sec.hdr.size < fuel)
    (hasc : symbols.Sorted (· ≤ ·))
    (hin : ∀ e ∈ symbols, start_addr sec ≤ e ∧ e < last_addr sec) :
    ∃ run, traverseSymbols cs fuel sec symbols = Res.ok run ∧
      Accounted cs Run.init.stats run.steps run.stats ∧ run.steps.length < SIZE_MOD ∧
      run.regions.map (fun c => (c.address, c.size)) = specRegions (last_addr sec) symbols := by
  have hlast : last_addr sec < SIZE_MOD := sizeAdd_lt _ _
  have hin2 : ∀ e ∈ symbols, e < last_addr sec ∧ last_addr sec < e + fuel := by
    intro e he
    obtain ⟨h1, h2⟩ := hin e he
    have := last_addr_sub_le sec e h1 h2
    exact ⟨h2, by omega⟩
  obtain ⟨run, hrun⟩ := symbolLoop_ok cs hadv hgrp fuel symbols (last_addr sec) hlast
    symbols 0 sec.data Run.init (by simp) hasc hin2
  obtain ⟨new, hsteps, hacc, hlen, hreg⟩ := symbolLoop_spec cs hadv fuel symbols
    (last_addr sec) hlast symbols 0 sec.data Run.init run (by simp) hasc
    (fun e he => (hin2 e he).1) hrun
  have hsteps' : run.steps = new := by simpa [Run.init] using hsteps
  refine ⟨run, hrun, ?_, ?_, ?_⟩
  · rw [hsteps']; exact hacc
  · rw [hsteps']; omega
  · simpa [Run.init] using hreg

theorem linearSweep_insns (cs : Capstone) (fuel : Nat) (sec : Section) (run : Run)
    (h : linearSweepTraversal cs fuel sec = Res.ok run) :
    run.insns = run.regions.flatMap (decodedFrom cs fuel) := by
  unfold linearSweepTraversal at h
  cases hdec : decodeLoop cs fuel ⟨sec.data, toSize sec.hdr.size, toSize sec.hdr.addr⟩
      ⟨Run.init.stats, [], [⟨sec.data, toSize sec.hdr.size, toSize sec.hdr.addr⟩]⟩ with
  | fault f => simp [hdec] at h
  | ok p =>
    obtain ⟨r, c'⟩ := p
    simp only [hdec, Res.ok.injEq] at h
    subst h
    obtain ⟨_, _, hreg, _, _⟩ := decodeLoop_spec cs fuel _ _ r c' hdec
    rw [decodeLoop_insns cs fuel _ _ r c' hdec, hreg]
    simp [Run.insns]

theorem traverseSymbols_insns (cs : Capstone) (fuel : Nat) (sec : Section)
    (symbols : List Nat) (run : Run)
    (h : traverseSymbols cs fuel sec symbols = Res.ok run) :
    run.insns = run.regions.flatMap (decodedFrom cs fuel) := by
  obtain ⟨regs, hreg, hins⟩ :=
    symbolLoop_insns cs fuel symbols (last_addr sec) symbols 0 sec.data Run.init run h
  rw [hins, hreg]
  simp [Run.init, Run.insns]

theorem fixedWidth_advances (jumpAt : Nat → Bool) : Advances (exampleCapstone jumpAt) := by
  intro c inst c' h
  simp only [exampleCapstone, fixedWidth] at h
  split at h
  · simp at h
  · simp only [Option.some.injEq, Prod.mk.injEq] at h
    obtain ⟨_, rfl⟩ := h
    simp only
    omega

theorem fixedWidth_groups (jumpAt : Nat → Bool) : GroupAssumption (exampleCapstone jumpAt) := by
  intro c inst c' d h hd
  simp only [exampleCapstone, fixedWidth] at h
  split at h
  · simp at h
  · simp only [Option.some.injEq, Prod.mk.injEq] at h
    obtain ⟨rfl, _⟩ := h
    simp only [Option.some.injEq] at hd
    subst hd
    split <;> simp

/-! ## Claims -/

/-- Claim C1: for a decoder that consumes at least one byte per instruction and
whose instructions satisfy the source's group assumption, both strategies run to
completion and their final counters are the reference counts over the decoded
instructions (those the decoder returns from the start cursor of each region, in
region order): their number, the number for which `isBranch` holds, and the
number for which `isBranch` holds and the single operand is an immediate.  The
final `printf` of each strategy is evaluated on exactly these counts. -/
theorem statistics_equal_reference_counts (cs : Capstone) (fuel : Nat) (m_elf_file : Elf)
    (sec : Section) (symbols : List Nat)
    (hadv : Advances cs) (hgrp : GroupAssumption cs) (hfuel : toSize sec.hdr.size < fuel)
    (hsym : getCodeSymbolsForSection m_elf_file sec = Res.ok symbols) :
    (∃ run, linearSweepTraversal cs fuel sec = Res.ok run ∧
        run.insns = run.regions.flatMap (decodedFrom cs fuel) ∧
        run.stats = refStats cs run.insns ∧
        disassembleSectionUsingLinearSweep cs fuel sec =
          printStatistics (refStats cs run.insns)) ∧
    (∃ run, symbolsTraversal cs fuel m_elf_file sec = Res.ok run ∧
        run.insns = run.regions.flatMap (decodedFrom cs fuel) ∧
        run.stats = refStats cs run.insns ∧
        disassembleSectionUsingSymbols cs fuel m_elf_file sec =
          printStatistics (refStats cs run.insns)) := by
  constructor
  · obtain ⟨run, hrun, hacc, hlen, _⟩ := linearSweep_run cs fuel sec hadv hgrp hfuel
    obtain ⟨hst, _, _⟩ := stats_of_accounted cs run.steps run.stats hacc hlen
    refine ⟨run, hrun, linearSweep_insns cs fuel sec run hrun, hst, ?_⟩
    simp only [disassembleSectionUsingLinearSweep, hrun]
    rw [hst]
    rfl
  · obtain ⟨hasc, hin⟩ := getCodeSymbolsForSection_sorted m_elf_file sec symbols hsym
    obtain ⟨run, hrun, hacc, hlen, _⟩ :=
      traverseSymbols_run cs fuel sec symbols hadv hgrp hfuel hasc hin
    obtain ⟨hst, _, _⟩ := stats_of_accounted cs run.steps run.stats hacc hlen
    have hrun' : symbolsTraversal cs fuel m_elf_file sec = Res.ok run := by
      simp only [symbolsTraversal, hsym, hrun]
    refine ⟨run, hrun', traverseSymbols_insns cs fuel sec symbols run hrun, hst, ?_⟩
    simp only [disassembleSectionUsingSymbols, hrun']
    rw [hst]
    rfl

/-- Witness for C1: a section of three instructions of which only the last is a
jump with a single immediate operand yields the counters 3, 1, 1 under both
strategies. -/
theorem statistics_equal_reference_counts_witness :
    Advances threeInsnCapstone ∧ GroupAssumption threeInsnCapstone ∧
    toSize threeInsnSection.hdr.size < 20 ∧
    getCodeSymbolsForSection (imageWithSymbols [threeInsnSection] [0x1000]) threeInsnSection =
      Res.ok [0x1000] ∧
    ((∃ run, linearSweepTraversal threeInsnCapstone 20 threeInsnSection = Res.ok run ∧
        run.insns = run.regions.flatMap (decodedFrom threeInsnCapstone 20) ∧
        run.stats = refStats threeInsnCapstone run.insns ∧
        disassembleSectionUsingLinearSweep threeInsnCapstone 20 threeInsnSection =
          printStatistics (refStats threeInsnCapstone run.insns)) ∧
     (∃ run, symbolsTraversal threeInsnCapstone 20
          (imageWithSymbols [threeInsnSection] [0x1000]) threeInsnSection = Res.ok run ∧
        run.insns = run.regions.flatMap (decodedFrom threeInsnCapstone 20) ∧
        run.stats = refStats threeInsnCapstone run.insns ∧
        disassembleSectionUsingSymbols threeInsnCapstone 20
          (imageWithSymbols [threeInsnSection] [0x1000]) threeInsnSection =
          printStatistics (refStats threeInsnCapstone run.insns))) ∧
    (decodedFrom threeInsnCapstone 20 ⟨0x5000, 12, 0x1000⟩).map
      (fun i => (isBranch threeInsnCapstone i, singleImmediateOperand threeInsnCapstone i)) =
      [(Res.ok false, false), (Res.ok false, false), (Res.ok true, true)] ∧
    statsOf (linearSweepTraversal threeInsnCapstone 20 threeInsnSection) = some ⟨3, 1, 1⟩ ∧
    statsOf (symbolsTraversal threeInsnCapstone 20
      (imageWithSymbols [threeInsnSection] [0x1000]) threeInsnSection) = some ⟨3, 1, 1⟩ ∧
    disassembleSectionUsingLinearSweep threeInsnCapstone 20 threeInsnSection =
      Res.ok ⟨3, 1, 1, 0, 0⟩ ∧
    disassembleSectionUsingSymbols threeInsnCapstone 20
      (imageWithSymbols [threeInsnSection] [0x1000]) threeInsnSection = Res.ok ⟨3, 1, 1, 0, 0⟩ :=
  ⟨fixedWidth_advances _, fixedWidth_groups _, by decide, by decide,
   statistics_equal_reference_counts threeInsnCapstone 20
     (imageWithSymbols [threeInsnSection] [0x1000]) threeInsnSection [0x1000]
     (fixedWidth_advances _) (fixedWidth_groups _) (by decide) (by decide),
   by decide, by decide, by decide, by decide, by decide⟩

/-- Claim C2: for every ascending list of entry addresses inside the section,
the symbol-guided traversal runs to completion and starts exactly one decode
region per entry, in list order: region `i` starts at address `entries[i]` with
remaining length `entries[i+1] - entries[i]`, and the last region starts at the
last entry with remaining length `last_addr - entries[last]`, where `last_addr`
is the section's start plus its size. -/
theorem regions_follow_entries (cs : Capstone) (fuel : Nat) (sec : Section)
    (entries : List Nat)
    (hadv : Advances cs) (hgrp : GroupAssumption cs) (hfuel : toSize sec.hdr.size < fuel)
    (hasc : entries.Sorted (· ≤ ·))
    (hin : ∀ e ∈ entries, start_addr sec ≤ e ∧ e < last_addr sec) :
    ∃ run, traverseSymbols cs fuel sec entries = Res.ok run ∧
      run.regions.length = entries.length ∧
      run.regions.map (fun c => (c.address, c.size)) = specRegions (last_addr sec) entries ∧
      run.regions.map (fun c => c.address) = entries := by
  obtain ⟨run, hrun, _, _, hreg⟩ :=
    traverseSymbols_run cs fuel sec entries hadv hgrp hfuel hasc hin
  have hfst : ∀ (last : Nat) (l : List Nat), (specRegions last l).map Prod.fst = l := by
    intro last l
    induction l with
    | nil => rfl
    | cons a t ih =>
      cases t with
      | nil => rfl
      | cons b t => simp only [specRegions, List.map_cons, ih]
  have haddr : run.regions.map (fun c => c.address) = entries := by
    have := congrArg (List.map Prod.fst) hreg
    rw [hfst, List.map_map] at this
    exact this
  refine ⟨run, hrun, ?_, hreg, haddr⟩
  have := congrArg List.length haddr
  simpa using this

/-- Witness for C2: entries `[0x100, 0x140, 0x180]` in the section
`[0x100, 0x1A0)` give the regions `[0x100,0x140)`, `[0x140,0x180)` and
`[0x180,0x1A0)`, here as pairs of start address and length. -/
theorem regions_follow_entries_witness :
    Advances plainCapstone ∧ GroupAssumption plainCapstone ∧
    toSize scenarioSection.hdr.size < 200 ∧
    List.Sorted (· ≤ ·) [0x100, 0x140, 0x180] ∧
    (∀ e ∈ [0x100, 0x140, 0x180],
      start_addr scenarioSection ≤ e ∧ e < last_addr scenarioSection) ∧
    (∃ run, traverseSymbols plainCapstone 200 scenarioSection [0x100, 0x140, 0x180] =
        Res.ok run ∧
      run.regions.length = 3 ∧
      run.regions.map (fun c => (c.address, c.size)) =
        [(0x100, 0x40), (0x140, 0x40), (0x180, 0x20)] ∧
      run.regions.map (fun c => c.address) = [0x100, 0x140, 0x180]) :=
  ⟨fixedWidth_advances _, fixedWidth_groups _, by decide, by decide, by decide,
   regions_follow_entries plainCapstone 200 scenarioSection [0x100, 0x140, 0x180]
     (fixedWidth_advances _) (fixedWidth_groups _) (by decide) (by decide) (by decide)⟩

/-- Claim C6: in every completed traversal by either strategy the counters are
consistent at the start, after every decoded instruction and at the end:
`direct_branch_count <= basic_block_count <= instruction_count`, and the
`size_t` difference `basic_block_count - direct_branch_count` does not wrap, so
that it adds up with `direct_branch_count` to `basic_block_count` exactly. -/
theorem counters_consistent_at_every_step (cs : Capstone) (fuel : Nat) (m_elf_file : Elf)
    (sec : Section) (symbols : List Nat)
    (hadv : Advances cs) (hgrp : GroupAssumption cs) (hfuel : toSize sec.hdr.size < fuel)
    (hsym : getCodeSymbolsForSection m_elf_file sec = Res.ok symbols) :
    (∃ run, linearSweepTraversal cs fuel sec = Res.ok run ∧
        ∀ st ∈ Run.init.stats :: run.stats :: run.history, st.Consistent) ∧
    (∃ run, symbolsTraversal cs fuel m_elf_file sec = Res.ok run ∧
        ∀ st ∈ Run.init.stats :: run.stats :: run.history, st.Consistent) := by
  constructor
  · obtain ⟨run, hrun, hacc, hlen, _⟩ := linearSweep_run cs fuel sec hadv hgrp hfuel
    obtain ⟨_, hfin, hall⟩ := stats_of_accounted cs run.steps run.stats hacc hlen
    refine ⟨run, hrun, ?_⟩
    intro st hst
    simp only [List.mem_cons] at hst
    rcases hst with rfl | rfl | hst
    · exact init_consistent
    · exact hfin
    · exact hall st hst
  · obtain ⟨hasc, hin⟩ := getCodeSymbolsForSection_sorted m_elf_file sec symbols hsym
    obtain ⟨run, hrun, hacc, hlen, _⟩ :=
      traverseSymbols_run cs fuel sec symbols hadv hgrp hfuel hasc hin
    obtain ⟨_, hfin, hall⟩ := stats_of_accounted cs run.steps run.stats hacc hlen
    refine ⟨run, by simp only [symbolsTraversal, hsym, hrun], ?_⟩
    intro st hst
    simp only [List.mem_cons] at hst
    rcases hst with rfl | rfl | hst
    · exact init_consistent
    · exact hfin
    · exact hall st hst

/-- Witness for C6: the section of three instructions whose last one is a direct
jump, under both strategies. -/
theorem counters_consistent_at_every_step_witness :
    Advances threeInsnCapstone ∧ GroupAssumption threeInsnCapstone ∧
    toSize threeInsnSection.hdr.size < 20 ∧
    getCodeSymbolsForSection (imageWithSymbols [threeInsnSection] [0x1000]) threeInsnSection =
      Res.ok [0x1000] ∧
    ((∃ run, linearSweepTraversal threeInsnCapstone 20 threeInsnSection = Res.ok run ∧
        ∀ st ∈ Run.init.stats :: run.stats :: run.history, st.Consistent) ∧
     (∃ run, symbolsTraversal threeInsnCapstone 20
          (imageWithSymbols [threeInsnSection] [0x1000]) threeInsnSection = Res.ok run ∧
        ∀ st ∈ Run.init.stats :: run.stats :: run.history, st.Consistent)) :=
  ⟨fixedWidth_advances _, fixedWidth_groups _, by decide, by decide,
   counters_consistent_at_every_step threeInsnCapstone 20
     (imageWithSymbols [threeInsnSection] [0x1000]) threeInsnSection [0x1000]
     (fixedWidth_advances _) (fixedWidth_groups _) (by decide) (by decide)⟩

/-- Claim C4: when the image has a readable symbol table, the list returned by
`getCodeSymbolsForSection` is sorted in ascending order and an address occurs in
it exactly when it is the value of some symbol record and lies between the
section's `start_addr` (inclusive) and `end_addr` (exclusive), the latter being
the `size_t` sum of the header's `addr` and `size`.  For a header whose sum does
not wrap and records whose values fit `size_t` this is
`addr <= v < addr + size`. -/
theorem code_symbols_sorted_and_in_range (m_elf_file : Elf) (sec : Section)
    (symtab : List Sym)
    (hvalid : (m_elf_file.get_section ".symtab").valid = true)
    (htab : (m_elf_file.get_section ".symtab").as_symtab = Res.ok symtab) :
    ∃ result, getCodeSymbolsForSection m_elf_file sec = Res.ok result ∧
      result.Sorted (· ≤ ·) ∧
      (∀ v, v ∈ result ↔
        (∃ s ∈ symtab, toSize s.value = v) ∧ start_addr sec ≤ v ∧ v < last_addr sec) ∧
      (sec.hdr.addr + sec.hdr.size < SIZE_MOD → (∀ s ∈ symtab, s.value < SIZE_MOD) →
        ∀ v, v ∈ result ↔
          (∃ s ∈ symtab, s.value = v) ∧ sec.hdr.addr ≤ v ∧ v < sec.hdr.addr + sec.hdr.size) := by
  have hmem : ∀ v, v ∈ List.insertionSort (· ≤ ·) (inRangeValues sec symtab) ↔
      (∃ s ∈ symtab, toSize s.value = v) ∧ start_addr sec ≤ v ∧ v < last_addr sec := by
    intro v
    rw [List.mem_insertionSort]
    simp [inRangeValues, List.mem_filter]
  refine ⟨_, getCodeSymbolsForSection_eq m_elf_file sec symtab hvalid htab,
    List.sorted_insertionSort _ _, hmem, ?_⟩
  intro hsum hval v
  have hstart : start_addr sec = sec.hdr.addr := by
    unfold start_addr toSize
    exact Nat.mod_eq_of_lt (by omega)
  have hlast : last_addr sec = sec.hdr.addr + sec.hdr.size := by
    unfold last_addr sizeAdd
    rw [hstart]
    unfold toSize
    rw [Nat.mod_eq_of_lt (show sec.hdr.size < SIZE_MOD by omega), Nat.mod_eq_of_lt hsum]
  have hrec : (∃ s ∈ symtab, toSize s.value = v) ↔ (∃ s ∈ symtab, s.value = v) := by
    constructor
    · rintro ⟨s, hs, h⟩
      exact ⟨s, hs, by rw [← h]; unfold toSize; exact (Nat.mod_eq_of_lt (hval s hs)).symm⟩
    · rintro ⟨s, hs, h⟩
      exact ⟨s, hs, by rw [← h]; unfold toSize; exact Nat.mod_eq_of_lt (hval s hs)⟩
  refine (hmem v).trans ?_
  rw [hstart, hlast, hrec]

/-- Witness for C4: an unsorted table with values below, inside and above the
section `[0x100, 0x1A0)`. -/
theorem code_symbols_sorted_and_in_range_witness :
    ((imageWithSymbols [scenarioSection] [0x180, 0x90, 0x100, 0x1A0, 0x140]).get_section
      ".symtab").valid = true ∧
    ((imageWithSymbols [scenarioSection] [0x180, 0x90, 0x100, 0x1A0, 0x140]).get_section
      ".symtab").as_symtab = Res.ok ([0x180, 0x90, 0x100, 0x1A0, 0x140].map Sym.mk) ∧
    getCodeSymbolsForSection
      (imageWithSymbols [scenarioSection] [0x180, 0x90, 0x100, 0x1A0, 0x140]) scenarioSection =
      Res.ok [0x100, 0x140, 0x180] ∧
    (∃ result, getCodeSymbolsForSection
        (imageWithSymbols [scenarioSection] [0x180, 0x90, 0x100, 0x1A0, 0x140])
        scenarioSection = Res.ok result ∧
      result.Sorted (· ≤ ·) ∧
      (∀ v, v ∈ result ↔
        (∃ s ∈ [0x180, 0x90, 0x100, 0x1A0, 0x140].map Sym.mk, toSize s.value = v) ∧
          start_addr scenarioSection ≤ v ∧ v < last_addr scenarioSection) ∧
      (scenarioSection.hdr.addr + scenarioSection.hdr.size < SIZE_MOD →
        (∀ s ∈ [0x180, 0x90, 0x100, 0x1A0, 0x140].map Sym.mk, s.value < SIZE_MOD) →
        ∀ v, v ∈ result ↔
          (∃ s ∈ [0x180, 0x90, 0x100, 0x1A0, 0x140].map Sym.mk, s.value = v) ∧
            scenarioSection.hdr.addr ≤ v ∧
            v < scenarioSection.hdr.addr + scenarioSection.hdr.size)) :=
  ⟨rfl, rfl, by decide,
   code_symbols_sorted_and_in_range
     (imageWithSymbols [scenarioSection] [0x180, 0x90, 0x100, 0x1A0, 0x140]) scenarioSection
     ([0x180, 0x90, 0x100, 0x1A0, 0x140].map Sym.mk) rfl rfl⟩

/-- Claim C9: when the image has no valid `.symtab` section,
`getCodeSymbolsForSection` returns the empty list and does not fail, whatever
reading the symbol records of the returned section would give. -/
theorem no_symbol_table_gives_empty (m_elf_file : Elf) (sec : Section)
    (hinvalid : (m_elf_file.get_section ".symtab").valid = false) :
    getCodeSymbolsForSection m_elf_file sec = Res.ok [] := by
  unfold getCodeSymbolsForSection
  simp [hinvalid]

/-- Witness for C9: an image whose lookup returns an invalid section on which
reading symbol records would throw. -/
theorem no_symbol_table_gives_empty_witness :
    ((imageWithoutSymbols [scenarioSection]).get_section ".symtab").valid = false ∧
    ((imageWithoutSymbols [scenarioSection]).get_section ".symtab").as_symtab =
      Res.fault Fault.typeMismatch ∧
    getCodeSymbolsForSection (imageWithoutSymbols [scenarioSection]) scenarioSection =
      Res.ok [] :=
  ⟨rfl, rfl, no_symbol_table_gives_empty (imageWithoutSymbols [scenarioSection])
    scenarioSection rfl⟩

/-- Counterexample to C5 as stated: two symbol records with the value 0x140
inside the section `[0x100, 0x1A0)` are both returned, the list is not strictly
increasing, and the second decode region of the traversal has length zero. -/
theorem code_symbols_not_deduplicated :
    getCodeSymbolsForSection (imageWithSymbols [scenarioSection] [0x140, 0x100, 0x140])
      scenarioSection = Res.ok [0x100, 0x140, 0x140] ∧
    ¬ List.Sorted (· < ·) [0x100, 0x140, 0x140] ∧
    (regionsOf (symbolsTraversal plainCapstone 200
        (imageWithSymbols [scenarioSection] [0x140, 0x100, 0x140]) scenarioSection)).map
      (fun c => (c.address, c.size)) = [(0x100, 0x40), (0x140, 0), (0x140, 0x60)] := by
  refine ⟨by decide, by decide, by decide⟩

theorem specRegions_bounds (last : Nat) :
    ∀ l : List Nat, l.Sorted (· ≤ ·) → (∀ e ∈ l, e < last) →
      ∀ p ∈ specRegions last l, p.1 + p.2 ≤ last ∧ (l.Nodup → 0 < p.2) := by
  intro l
  induction l with
  | nil => intro _ _ p hp; simp [specRegions] at hp
  | cons e t ih =>
    intro hsorted hin p hp
    have he : e < last := hin e (List.mem_cons_self _ _)
    cases t with
    | nil =>
      simp only [specRegions, List.mem_singleton] at hp
      subst hp
      exact ⟨by simp only; omega, fun _ => by simp only; omega⟩
    | cons e' rest =>
      simp only [specRegions, List.mem_cons] at hp
      have hle : e ≤ e' := List.rel_of_sorted_cons hsorted e' (List.mem_cons_self _ _)
      have he' : e' < last := hin e' (List.mem_cons_of_mem _ (List.mem_cons_self _ _))
      rcases hp with rfl | hp
      · refine ⟨by simp only; omega, fun hnd => ?_⟩
        have hne : e ≠ e' := by
          intro h
          rw [List.nodup_cons] at hnd
          exact hnd.1 (h ▸ List.mem_cons_self _ _)
        simp only
        omega
      · obtain ⟨h1, h2⟩ := ih hsorted.of_cons
          (fun x hx => hin x (List.mem_cons_of_mem _ hx)) p
          (by simpa only [List.mem_cons] using hp)
        exact ⟨h1, fun hnd => h2 (List.nodup_cons.mp hnd).2⟩

/-- Claim C5, amended: the list returned by `getCodeSymbolsForSection` is sorted
in ascending order and keeps duplicates (it is a rearrangement of the in-range
values of all symbol records), so every decode region of the symbol-guided
traversal has the exact, unwrapped length up to the next entry or the section
end and lies inside the section; the lengths are strictly positive when no
value is repeated. -/
theorem code_symbols_sorted_keep_duplicates (cs : Capstone) (fuel : Nat) (m_elf_file : Elf)
    (sec : Section) (symtab : List Sym)
    (hadv : Advances cs) (hgrp : GroupAssumption cs) (hfuel : toSize sec.hdr.size < fuel)
    (hvalid : (m_elf_file.get_section ".symtab").valid = true)
    (htab : (m_elf_file.get_section ".symtab").as_symtab = Res.ok symtab) :
    ∃ result, getCodeSymbolsForSection m_elf_file sec = Res.ok result ∧
      result.Sorted (· ≤ ·) ∧ result.Perm (inRangeValues sec symtab) ∧
      ∃ run, symbolsTraversal cs fuel m_elf_file sec = Res.ok run ∧
        run.regions.map (fun c => (c.address, c.size)) = specRegions (last_addr sec) result ∧
        (∀ c ∈ run.regions, c.address + c.size ≤ last_addr sec) ∧
        (result.Nodup → ∀ c ∈ run.regions, 0 < c.size) := by
  have hres := getCodeSymbolsForSection_eq m_elf_file sec symtab hvalid htab
  obtain ⟨hasc, hin⟩ := getCodeSymbolsForSection_sorted m_elf_file sec _ hres
  obtain ⟨run, hrun, _, _, hreg⟩ :=
    traverseSymbols_run cs fuel sec _ hadv hgrp hfuel hasc hin
  have hb := specRegions_bounds (last_addr sec) _ hasc (fun e he => (hin e he).2)
  have hmem : ∀ c ∈ run.regions, (c.address, c.size) ∈
      specRegions (last_addr sec) (List.insertionSort (· ≤ ·)
        ((symtab.map (fun s => toSize s.value)).filter
          (fun v => decide (start_addr sec ≤ v ∧ v < last_addr sec)))) := by
    intro c hc
    rw [← hreg]
    exact List.mem_map_of_mem _ hc
  refine ⟨_, hres, hasc, List.perm_insertionSort _ _, run, ?_, hreg, ?_, ?_⟩
  · simp only [symbolsTraversal, hres, hrun]
  · intro c hc
    exact (hb _ (hmem c hc)).1
  · intro hnd c hc
    exact (hb _ (hmem c hc)).2 hnd

/-- Witness for the amended C5: the table with the repeated value 0x140. -/
theorem code_symbols_sorted_keep_duplicates_witness :
    Advances plainCapstone ∧ GroupAssumption plainCapstone ∧
    toSize scenarioSection.hdr.size < 200 ∧
    ((imageWithSymbols [scenarioSection] [0x140, 0x100, 0x140]).get_section
      ".symtab").valid = true ∧
    ((imageWithSymbols [scenarioSection] [0x140, 0x100, 0x140]).get_section
      ".symtab").as_symtab = Res.ok ([0x140, 0x100, 0x140].map Sym.mk) ∧
    (∃ result, getCodeSymbolsForSection
        (imageWithSymbols [scenarioSection] [0x140, 0x100, 0x140]) scenarioSection =
        Res.ok result ∧
      result.Sorted (· ≤ ·) ∧
      result.Perm (inRangeValues scenarioSection ([0x140, 0x100, 0x140].map Sym.mk)) ∧
      ∃ run, symbolsTraversal plainCapstone 200
          (imageWithSymbols [scenarioSection] [0x140, 0x100, 0x140]) scenarioSection =
          Res.ok run ∧
        run.regions.map (fun c => (c.address, c.size)) =
          specRegions (last_addr scenarioSection) result ∧
        (∀ c ∈ run.regions, c.address + c.size ≤ last_addr scenarioSection) ∧
        (result.Nodup → ∀ c ∈ run.regions, 0 < c.size)) :=
  ⟨fixedWidth_advances _, fixedWidth_groups _, by decide, rfl, rfl,
   code_symbols_sorted_keep_duplicates plainCapstone 200
     (imageWithSymbols [scenarioSection] [0x140, 0x100, 0x140]) scenarioSection
     ([0x140, 0x100, 0x140].map Sym.mk)
     (fixedWidth_advances _) (fixedWidth_groups _) (by decide) rfl rfl⟩

/-! ## The image scanners -/

theorem scanLinearSweep_spec (cs : Capstone) (fuel : Nat) :
    ∀ (secs : List Section) (log : List (Section × Report)),
      (∀ sec ∈ secs, (sec.is_alloc && sec.is_exec) = true →
        ∃ r, disassembleSectionUsingLinearSweep cs fuel sec = Res.ok r) →
      ∃ new, scanLinearSweep cs fuel secs log = Res.ok (log ++ new) ∧
        new.map Prod.fst = secs.filter (fun s => s.is_alloc && s.is_exec) ∧
        ∀ p ∈ new, disassembleSectionUsingLinearSweep cs fuel p.1 = Res.ok p.2 := by
  intro secs
  induction secs with
  | nil => intro log _; exact ⟨[], by simp [scanLinearSweep], rfl, by simp⟩
  | cons sec rest ih =>
    intro log h
    have hrest : ∀ s ∈ rest, (s.is_alloc && s.is_exec) = true →
        ∃ r, disassembleSectionUsingLinearSweep cs fuel s = Res.ok r :=
      fun s hs => h s (List.mem_cons_of_mem _ hs)
    unfold scanLinearSweep
    by_cases hc : (sec.is_alloc && sec.is_exec) = true
    · obtain ⟨r, hr⟩ := h sec (List.mem_cons_self _ _) hc
      obtain ⟨new, h1, h2, h3⟩ := ih (log ++ [(sec, r)]) hrest
      refine ⟨(sec, r) :: new, ?_, ?_, ?_⟩
      · simp only [hc, if_true, hr, h1]
        simp
      · simp only [List.map_cons, List.filter_cons, hc, if_true, h2]
      · intro p hp
        simp only [List.mem_cons] at hp
        rcases hp with rfl | hp
        · exact hr
        · exact h3 p hp
    · obtain ⟨new, h1, h2, h3⟩ := ih log hrest
      refine ⟨new, ?_, ?_, h3⟩
      · simp only [hc, if_false, h1]
        simp
      · simp [List.filter_cons, hc, h2]

theorem scanSymbols_spec (cs : Capstone) (fuel : Nat) (m_elf_file : Elf) :
    ∀ (secs : List Section) (log : List (Section × Report)),
      (∀ sec ∈ secs, (sec.is_alloc && sec.is_exec) = true →
        ∃ r, disassembleSectionUsingSymbols cs fuel m_elf_file sec = Res.ok r) →
      ∃ new, scanSymbols cs fuel m_elf_file secs log = Res.ok (log ++ new) ∧
        new.map Prod.fst = secs.filter (fun s => s.is_alloc && s.is_exec) ∧
        ∀ p ∈ new, disassembleSectionUsingSymbols cs fuel m_elf_file p.1 = Res.ok p.2 := by
  intro secs
  induction secs with
  | nil => intro log _; exact ⟨[], by simp [scanSymbols], rfl, by simp⟩
  | cons sec rest ih =>
    intro log h
    have hrest : ∀ s ∈ rest, (s.is_alloc && s.is_exec) = true →
        ∃ r, disassembleSectionUsingSymbols cs fuel m_elf_file s = Res.ok r :=
      fun s hs => h s (List.mem_cons_of_mem _ hs)
    unfold scanSymbols
    by_cases hc : (sec.is_alloc && sec.is_exec) = true
    · obtain ⟨r, hr⟩ := h sec (List.mem_cons_self _ _) hc
      obtain ⟨new, h1, h2, h3⟩ := ih (log ++ [(sec, r)]) hrest
      refine ⟨(sec, r) :: new, ?_, ?_, ?_⟩
      · simp only [hc, if_true, hr, h1]
        simp
      · simp only [List.map_cons, List.filter_cons, hc, if_true, h2]
      · intro p hp
        simp only [List.mem_cons] at hp
        rcases hp with rfl | hp
        · exact hr
        · exact h3 p hp
    · obtain ⟨new, h1, h2, h3⟩ := ih log hrest
      refine ⟨new, ?_, ?_, h3⟩
      · simp only [hc, if_false, h1]
        simp
      · simp [List.filter_cons, hc, h2]

/-! ## Defects of the source -/

/-- Claim C3 fails on the code: with entries `[0x100, 0x140, 0x180]` in the
section `[0x100, 0x1A0)`, whose bytes are stored at `[0x5000, 0x50A0)`, and a
decoder that never consumes more than the remaining length, the three regions
are decoded from the byte pointers 0x5040, 0x50C0 and 0x5100 instead of 0x5000,
0x5040 and 0x5080; the last two lie outside the section's bytes. -/
theorem code_pointer_not_at_region_start :
    (regionsOf (traverseSymbols plainCapstone 200 scenarioSection
        [0x100, 0x140, 0x180])).map (fun c => (c.code, c.size, c.address)) =
      [(0x5040, 0x40, 0x100), (0x50C0, 0x40, 0x140), (0x5100, 0x20, 0x180)] ∧
    [0x100, 0x140, 0x180].map (fun e => scenarioSection.data + (e - start_addr scenarioSection)) =
      [0x5000, 0x5040, 0x5080] ∧
    scenarioSection.data + toSize scenarioSection.hdr.size = 0x50A0 := by
  refine ⟨by decide, by decide, by decide⟩

theorem printStatistics_no_branch (st : Stats) (h : st.basic_block_count = 0) :
    printStatistics st = Res.fault Fault.divByZero := by
  simp [printStatistics, sizeDiv, h]

/-- Claim C7 fails on the code: for a section in which no jump is decoded (40
instructions, none of them a jump) and for a symbol-guided traversal without
symbols, the traversal ends with `basic_block_count == 0` and the final `printf`
of either strategy divides by it. -/
theorem percentage_divides_by_zero :
    statsOf (linearSweepTraversal plainCapstone 200 scenarioSection) = some ⟨40, 0, 0⟩ ∧
    disassembleSectionUsingLinearSweep plainCapstone 200 scenarioSection =
      Res.fault Fault.divByZero ∧
    statsOf (symbolsTraversal plainCapstone 200 (imageWithSymbols [scenarioSection] [0x100])
      scenarioSection) = some ⟨40, 0, 0⟩ ∧
    disassembleSectionUsingSymbols plainCapstone 200
      (imageWithSymbols [scenarioSection] [0x100]) scenarioSection =
      Res.fault Fault.divByZero ∧
    statsOf (symbolsTraversal plainCapstone 200 (imageWithoutSymbols [scenarioSection])
      scenarioSection) = some ⟨0, 0, 0⟩ ∧
    disassembleSectionUsingSymbols plainCapstone 200 (imageWithoutSymbols [scenarioSection])
      scenarioSection = Res.fault Fault.divByZero := by
  refine ⟨by decide, by decide, by decide, by decide, by decide, by decide⟩

/-- Claim C8 fails on the code: for an instruction whose detail records no
group, `isBranch` reads `groups[-1]`, outside the group list, instead of
returning false. -/
theorem isBranch_reads_outside_groups (cs : Capstone) (address size : Nat)
    (tricore : cs_tricore) :
    isBranch cs ⟨address, size, some ⟨[], tricore⟩⟩ = Res.fault Fault.outOfRange := by
  simp [isBranch, cs_detail.groups_count, readAt]

/-- Claim C10 fails on the code: in an image whose first code section contains no
jump and whose second code section would be traversed without fault, both
scanners end in the division by zero of the first section's final `printf` and
never reach the second section, although both sections pass the filter
`is_alloc && is_exec`; likewise the symbol-guided scan of an image without a
symbol table ends at its first code section.  When every per-section traversal
returns, the traversed sections are the filtered section list. -/
theorem scan_ends_at_section_without_jump :
    (imageWithSymbols [quietSection, threeInsnSection] [0x100, 0x1000]).sections.filter
      (fun s => s.is_alloc && s.is_exec) = [quietSection, threeInsnSection] ∧
    disassembleSectionUsingLinearSweep threeInsnCapstone 200 quietSection =
      Res.fault Fault.divByZero ∧
    disassembleSectionUsingLinearSweep threeInsnCapstone 200 threeInsnSection =
      Res.ok ⟨3, 1, 1, 0, 0⟩ ∧
    disassembleCodeUsingLinearSweep threeInsnCapstone 200
      (imageWithSymbols [quietSection, threeInsnSection] [0x100, 0x1000]) =
      Res.fault Fault.divByZero ∧
    disassembleSectionUsingSymbols threeInsnCapstone 200
      (imageWithSymbols [quietSection, threeInsnSection] [0x100, 0x1000]) quietSection =
      Res.fault Fault.divByZero ∧
    disassembleSectionUsingSymbols threeInsnCapstone 200
      (imageWithSymbols [quietSection, threeInsnSection] [0x100, 0x1000]) threeInsnSection =
      Res.ok ⟨3, 1, 1, 0, 0⟩ ∧
    disassembleCodeUsingSymbols threeInsnCapstone 200
      (imageWithSymbols [quietSection, threeInsnSection] [0x100, 0x1000]) =
      Res.fault Fault.divByZero ∧
    disassembleCodeUsingSymbols threeInsnCapstone 200
      (imageWithoutSymbols [threeInsnSection, quietSection]) = Res.fault Fault.divByZero ∧
    traversedSections (disassembleCodeUsingLinearSweep threeInsnCapstone 200
      (imageWithSymbols [dataSection, threeInsnSection] [0x1000])) = some [threeInsnSection] ∧
    traversedSections (disassembleCodeUsingSymbols threeInsnCapstone 200
      (imageWithSymbols [dataSection, threeInsnSection] [0x1000])) = some [threeInsnSection] := by
  refine ⟨by decide, by decide, by decide, by decide, by decide, by decide, by decide,
    by decide, by decide, by decide⟩

end ElfDisassembler
